import Mathlib

/-!
Verification of the label propagation clustering module
`sknetwork/topology/labProp.pyx` (scikit-network).

The source is a Cython module with three parts:
* `shuffle(arr, n)` — in-place Fisher–Yates using the C library `rand()`;
* `fit_core(n_nodes, indices, indptr)` — the asynchronous label propagation
  loop over a CSR graph;
* `class LabelPropagation` — a thin wrapper storing `labels_` and `seed`.

Embedding conventions:
* Machine `int` arrays/memoryviews are modelled as `List Nat` in the main
  model; the claims proved against it assume valid CSR inputs, whose values
  are nonnegative and in range, so `Nat` loses nothing there.  A second model
  (`fit_coreCy` below) keeps raw `Int` values and the exact Cython access
  semantics (wraparound plus bounds check on numpy buffers / memoryviews,
  unchecked access into C++ vectors) and is used for the error-handling
  analysis on invalid inputs.
* The C library generator is external to the repository.  `rand()` output
  values are modelled as a position-indexed stream `rand : Nat → Nat`; the
  seeded generator (`srand`) is modelled by the `CRandom` state machine.
* The `while changed` loop of `fit_core` has no iteration bound in the
  source; the model is fuel-indexed and returns `none` when the fuel is
  exhausted before a pass without changes is observed.
-/

/-- One modular draw: `shuffle` computes `j = rand() % (i+1)`. -/
def randDraw (r m : Nat) : Nat := r % m

/-- `RAND_MAX` of the C library on the reference platform (glibc), `2^31 - 1`.
Modelled from the spec: `rand()` is the external C generator (not part of
src/), idealized as uniform on `[0, RAND_MAX]`. -/
def RAND_MAX : Nat := 2 ^ 31 - 1

/-- The index sequence of the shuffle loop, `range(n-1, 0, -1)`. -/
def downList (n : Nat) : List Nat := ((List.range (n - 1)).reverse).map (fun i => i + 1)

/-- Body of `shuffle`: for each `i`, draw `j = rand() % (i+1)` (consuming the
stream value at position `p`) and swap `arr[i]` with `arr[j]`. -/
def shuffleGo (rand : Nat → Nat) : List Nat → List Nat → Nat → List Nat × Nat
  | [], arr, p => (arr, p)
  | i :: rest, arr, p =>
    let j := randDraw (rand p) (i + 1)
    let ai := arr.getD i 0
    let aj := arr.getD j 0
    shuffleGo rand rest ((arr.set i aj).set j ai) (p + 1)

/-- `shuffle(arr, n)`: Fisher–Yates from index `n-1` down to `1`. -/
def shuffle (rand : Nat → Nat) (arr : List Nat) (n : Nat) (p : Nat) : List Nat × Nat :=
  shuffleGo rand (downList n) arr p

/-- CSR input of `fit_core`: `n_nodes`, `indices`, `indptr`. -/
structure Graph where
  n : Nat
  indices : List Nat
  indptr : List Nat

/-- Offset read `indptr[k]`. -/
def ptr (g : Graph) (k : Nat) : Nat := g.indptr.getD k 0

/-- The node ids read by the inner loop
`for j in range(indptr[i], indptr[i+1]): indices[j]`. -/
def neighborList (g : Graph) (i : Nat) : List Nat :=
  (List.range' (ptr g i) (ptr g (i + 1) - ptr g i)).map (fun j => g.indices.getD j 0)

/-- The CSR validity invariant of the spec (§3): `indptr` has length
`n_nodes + 1`, is non-decreasing, its final offset is the length of
`indices`, and every `indices` value is in `[0, n_nodes)`. -/
def ValidCSR (g : Graph) : Prop :=
  g.indptr.length = g.n + 1 ∧
  (∀ k, k < g.n → ptr g k ≤ ptr g (k + 1)) ∧
  ptr g g.n = g.indices.length ∧
  (∀ j, j < g.indices.length → g.indices.getD j 0 < g.n)

/-- First loop of the per-node body: tally the neighbors' labels in
`nb_labels` (`t`) and append each first-encountered label to the scratch
list `lst`. -/
def tallyGo (labels : List Nat) : List Nat → List Nat → List Nat → List Nat × List Nat
  | [], t, lst => (t, lst)
  | v :: rest, t, lst =>
    let lab := labels.getD v 0
    let lst' := if t.getD lab 0 = 0 then lst ++ [lab] else lst
    tallyGo labels rest (t.set lab (t.getD lab 0 + 1)) lst'

/-- Second loop of the per-node body: scan `lst`, keep the running maximum
`nb_lab_max`, write `labels[i]` and set `changed` on each strict improvement,
and reset each visited tally entry to zero. -/
def selectGo (i : Nat) : List Nat → Nat → List Nat → List Nat → Bool → Nat × List Nat × List Nat × Bool
  | [], m, labs, t, ch => (m, labs, t, ch)
  | lab :: rest, m, labs, t, ch =>
    if m < t.getD lab 0 then
      selectGo i rest (t.getD lab 0) (labs.set i lab) (t.set lab 0) true
    else
      selectGo i rest m labs (t.set lab 0) ch

/-- One iteration of the per-pass node loop, at node `i`: tally the
neighborhood, read `nb_lab_max = nb_labels[labels[i]]`, then select. -/
def processNode (g : Graph) (labels t : List Nat) (ch : Bool) (i : Nat) : List Nat × List Nat × Bool :=
  let r := tallyGo labels (neighborList g i) t []
  let m0 := r.1.getD (labels.getD i 0) 0
  let s := selectGo i r.2 m0 labels r.1 ch
  (s.2.1, s.2.2.1, s.2.2.2)

/-- The `for k in range(n_nodes)` loop of one pass: visit node `order[k]`. -/
def passGo (g : Graph) (order : List Nat) : List Nat → List Nat × List Nat × Bool → List Nat × List Nat × Bool
  | [], st => st
  | k :: rest, st => passGo g order rest (processNode g st.1 st.2.1 st.2.2 (order.getD k 0))

/-- One full pass: `changed = False`, then the node loop in `order`. -/
def runPass (g : Graph) (order labels t : List Nat) : List Nat × List Nat × Bool :=
  passGo g order (List.range g.n) (labels, t, false)

/-- The `while changed` loop, fuel-indexed.  Each iteration reshuffles
`order` in place, runs one pass, and stops when the pass reports no change,
returning the labels and the final rand-stream position. -/
def loopGo (g : Graph) (rand : Nat → Nat) : Nat → List Nat → List Nat → List Nat → Nat → Option (List Nat × Nat)
  | 0, _, _, _, _ => none
  | fuel + 1, labels, t, order, p =>
    let sh := shuffle rand order g.n p
    let r := runPass g sh.1 labels t
    if r.2.2 then loopGo g rand fuel r.1 r.2.1 sh.1 sh.2 else some (r.1, sh.2)

/-- `fit_core`: `labels` and `order` initialized to `arange(n_nodes)`,
`nb_labels` zero-filled over `range(n_nodes)`, then the main loop. -/
def fit_core (g : Graph) (rand : Nat → Nat) (fuel : Nat) : Option (List Nat × Nat) :=
  loopGo g rand fuel (List.range g.n) (List.replicate g.n 0) (List.range g.n) 0

/-- Instrumented main loop: the labels contents after each pass. -/
def loopTraceGo (g : Graph) (rand : Nat → Nat) : Nat → List Nat → List Nat → List Nat → Nat → List (List Nat)
  | 0, _, _, _, _ => []
  | fuel + 1, labels, t, order, p =>
    let sh := shuffle rand order g.n p
    let r := runPass g sh.1 labels t
    if r.2.2 then r.1 :: loopTraceGo g rand fuel r.1 r.2.1 sh.1 sh.2 else [r.1]

/-- Per-pass label trace of `fit_core`. -/
def fitTrace (g : Graph) (rand : Nat → Nat) (fuel : Nat) : List (List Nat) :=
  loopTraceGo g rand fuel (List.range g.n) (List.replicate g.n 0) (List.range g.n) 0

/-- Modelled from the spec: the C library global random generator (external
to src/), a deterministic state machine; `srand` maps a seed to a definite
state, `rand` maps a state to an output value and the next state. -/
structure CRandom where
  seedState : Int → Nat
  next : Nat → Nat × Nat

/-- Generator state after `k` calls to `rand()` starting from state `s`. -/
def CRandom.stateAt (c : CRandom) (s : Nat) : Nat → Nat
  | 0 => s
  | k + 1 => (c.next (c.stateAt s k)).2

/-- The stream of `rand()` outputs from state `s` (position-indexed). -/
def CRandom.stream (c : CRandom) (s : Nat) : Nat → Nat :=
  fun k => (c.next (c.stateAt s k)).1

/-- Per-pass label trace of a seeded run: if a seed is given, `srand(seed)`
replaces the prior generator state `s`, exactly as in `LabelPropagation.fit`. -/
def fitTraceSeeded (c : CRandom) (s : Nat) (seed : Option Int) (g : Graph) (fuel : Nat) : List (List Nat) :=
  fitTrace g (c.stream (match seed with | some k => c.seedState k | none => s)) fuel

/-- Result of a seeded run (the labels of `fit_core` plus the stream
position), seed handling as in `LabelPropagation.fit`. -/
def fitSeeded (c : CRandom) (s : Nat) (seed : Option Int) (g : Graph) (fuel : Nat) : Option (List Nat × Nat) :=
  fit_core g (c.stream (match seed with | some k => c.seedState k | none => s)) fuel

/-- The `LabelPropagation` object: the attributes set by `__init__`. -/
structure LabelPropagation where
  labels_ : Option (List Nat)
  seed : Option Int

/-- `__init__(seed=None)`: `labels_ = None`, store the seed. -/
def LabelPropagation.init (seed : Option Int) : LabelPropagation := ⟨none, seed⟩

/-- `fit(adjacency)`: if `self.seed` is not `None`, `srand(self.seed)`
replaces the global generator state `s`; `fit_core` runs on the resulting
stream; `labels_` receives the result.  The returned pair carries the updated
object and the final generator state (the effect of the `rand()` calls);
`none` models only fuel exhaustion of the unbounded source loop. -/
def LabelPropagation.fit (self : LabelPropagation) (c : CRandom) (s : Nat) (g : Graph) (fuel : Nat) : Option (LabelPropagation × Nat) :=
  let s0 := match self.seed with
    | some k => c.seedState k
    | none => s
  match fit_core g (c.stream s0) fuel with
  | some (ls, p) => some ({ self with labels_ := some ls }, c.stateAt s0 p)
  | none => none

/-- `fit_transform(*args)`: run `fit`, then return `self.labels_`. -/
def LabelPropagation.fit_transform (self : LabelPropagation) (c : CRandom) (s : Nat) (g : Graph) (fuel : Nat) : Option ((LabelPropagation × Nat) × Option (List Nat)) :=
  match self.fit c s g fuel with
  | some (self', s') => some ((self', s'), self'.labels_)
  | none => none

/-- The labels-array invariant of the spec (§3): length `n_nodes`, every
entry in `[0, n_nodes)`. -/
def LabelsInv (n : Nat) (labels : List Nat) : Prop :=
  labels.length = n ∧ ∀ i, i < n → labels.getD i 0 < n

/-- `u` has `v` among its CSR neighbor entries. -/
def Adj (g : Graph) (u v : Nat) : Prop := v ∈ neighborList g u

/-- Connectivity: the equivalence closure of adjacency. -/
def Conn (g : Graph) : Nat → Nat → Prop := Relation.EqvGen (Adj g)

/-- Every node's label is the id of a node of its own connected component. -/
def ConnInv (g : Graph) (labels : List Nat) : Prop :=
  labels.length = g.n ∧ ∀ k, k < g.n → Conn g k (labels.getD k 0)

/-- Cython numpy-buffer / memoryview read under the default directives
(`wraparound` on, `boundscheck` on, as in `fit_core`): a negative index is
shifted by the length; an index outside `[0, len)` after the shift raises
`IndexError`. -/
def mvRead (a : List Int) (x : Int) : Except String Int :=
  let y := if x < 0 then x + a.length else x
  if 0 ≤ y ∧ y < a.length then .ok (a.getD y.toNat 0) else .error "IndexError: out of bounds"

/-- Cython numpy-buffer / memoryview write, same semantics as `mvRead`. -/
def mvWrite (a : List Int) (x v : Int) : Except String (List Int) :=
  let y := if x < 0 then x + a.length else x
  if 0 ≤ y ∧ y < a.length then .ok (a.set y.toNat v) else .error "IndexError: out of bounds"

/-- C++ `vector::operator[]`: no wraparound and no bounds check; access
outside the reserved capacity is undefined behavior, modelled as an error. -/
def vecRead (v : List Int) (x : Int) : Except String Int :=
  if 0 ≤ x ∧ x < v.length then .ok (v.getD x.toNat 0) else .error "undefined behavior: vector index"

/-- C++ `vector::operator[]` write; see `vecRead`. -/
def vecWrite (v : List Int) (x val : Int) : Except String (List Int) :=
  if 0 ≤ x ∧ x < v.length then .ok (v.set x.toNat val) else .error "undefined behavior: vector index"

/-- Python `range(a, b)` over machine ints. -/
def intRange (a b : Int) : List Int := (List.range (b - a).toNat).map (fun k => a + k)

/-- Tally loop of `fit_core` under Cython access semantics; state is
`(nb_labels, lst, list_size)`. -/
def tallyGoCy (labels indices : List Int) : List Int → List Int → List Int → Int → Except String (List Int × List Int × Int)
  | [], t, lst, sz => .ok (t, lst, sz)
  | j :: rest, t, lst, sz => do
    let v ← mvRead indices j
    let lab ← mvRead labels v
    let c ← vecRead t lab
    let s ← if c = 0 then do
        let l ← vecWrite lst sz lab
        pure (l, sz + 1)
      else pure (lst, sz)
    let t' ← vecWrite t lab (c + 1)
    tallyGoCy labels indices rest t' s.1 s.2

/-- Selection loop of `fit_core` under Cython access semantics. -/
def selectGoCy (i : Int) : List Int → Int → List Int → List Int → List Int → Bool → Except String (Int × List Int × List Int × Bool)
  | [], m, labs, t, _, ch => .ok (m, labs, t, ch)
  | j :: rest, m, labs, t, lst, ch => do
    let lab ← vecRead lst j
    let c ← vecRead t lab
    if m < c then do
      let labs' ← mvWrite labs i lab
      let t' ← vecWrite t lab 0
      selectGoCy i rest c labs' t' lst true
    else do
      let t' ← vecWrite t lab 0
      selectGoCy i rest m labs t' lst ch

/-- Per-node body of `fit_core` under Cython access semantics. -/
def processNodeCy (indices indptr : List Int) (labels t lst : List Int) (ch : Bool) (i : Int) : Except String (List Int × List Int × List Int × Bool) := do
  let a ← mvRead indptr i
  let b ← mvRead indptr (i + 1)
  let r ← tallyGoCy labels indices (intRange a b) t lst 0
  let own ← mvRead labels i
  let m0 ← vecRead r.1 own
  let s ← selectGoCy i (intRange 0 r.2.2) m0 labels r.1 r.2.1 ch
  pure (s.2.1, s.2.2.1, r.2.1, s.2.2.2)

/-- Node loop of one pass under Cython access semantics. -/
def passGoCy (indices indptr : List Int) (order : List Int) : List Nat → List Int → List Int → List Int → Bool → Except String (List Int × List Int × List Int × Bool)
  | [], labels, t, lst, ch => .ok (labels, t, lst, ch)
  | k :: rest, labels, t, lst, ch => do
    let i ← mvRead order (Int.ofNat k)
    let r ← processNodeCy indices indptr labels t lst ch i
    passGoCy indices indptr order rest r.1 r.2.1 r.2.2.1 r.2.2.2

/-- Shuffle body under the `shuffle` directives (`boundscheck(False)`,
`wraparound(False)`): raw indexing, `i` and `j` always in `[0, n)`. -/
def shuffleGoCy (rand : Nat → Nat) : List Nat → List Int → Nat → List Int × Nat
  | [], arr, p => (arr, p)
  | i :: rest, arr, p =>
    let j := randDraw (rand p) (i + 1)
    let ai := arr.getD i 0
    let aj := arr.getD j 0
    shuffleGoCy rand rest ((arr.set i aj).set j ai) (p + 1)

/-- Main loop of `fit_core` under Cython access semantics (fuel-indexed;
`.ok none` means fuel exhausted with no error raised). -/
def loopGoCy (nv : Nat) (indices indptr : List Int) (rand : Nat → Nat) : Nat → List Int → List Int → List Int → List Int → Nat → Except String (Option (List Int × Nat))
  | 0, _, _, _, _, _ => .ok none
  | fuel + 1, labels, t, lst, order, p => do
    let sh := shuffleGoCy rand (downList nv) order p
    let r ← passGoCy indices indptr sh.1 (List.range nv) labels t lst false
    if r.2.2.2 then loopGoCy nv indices indptr rand fuel r.1 r.2.1 r.2.2.1 sh.1 sh.2
    else pure (some (r.1, sh.2))

/-- `fit_core` under Cython access semantics over raw `Int` inputs; used to
settle the error-handling claim on invalid CSR inputs.  `nb_labels` and
`lst` are modelled at their reserved capacity `n_nodes`, zero-filled (the
source zero-fills `nb_labels`; `lst` cells are read only after being
written). -/
def fit_coreCy (nv : Nat) (indices indptr : List Int) (rand : Nat → Nat) (fuel : Nat) : Except String (Option (List Int × Nat)) :=
  loopGoCy nv indices indptr rand fuel
    ((List.range nv).map Int.ofNat) (List.replicate nv 0) (List.replicate nv 0)
    ((List.range nv).map Int.ofNat) 0

/-- CSR validity for raw int inputs (spec §3/§7). -/
def ValidCSRInt (nv : Nat) (indices indptr : List Int) : Prop :=
  indptr.length = nv + 1 ∧
  (∀ k, k < nv → indptr.getD k 0 ≤ indptr.getD (k + 1) 0) ∧
  indptr.getD nv 0 = indices.length ∧
  (∀ j, j < indices.length → 0 ≤ indices.getD j 0 ∧ indices.getD j 0 < nv)

instance (g : Graph) : Decidable (ValidCSR g) := by unfold ValidCSR; infer_instance

instance (nv : Nat) (indices indptr : List Int) : Decidable (ValidCSRInt nv indices indptr) := by unfold ValidCSRInt; infer_instance

/-- All-zero rand stream, for concrete witness runs. -/
def zeroStream : Nat → Nat := fun _ => 0

/-- The 2-clique: two mutually connected nodes, no other edge. -/
def g2 : Graph := ⟨2, [1, 0], [0, 1, 2]⟩

/-- A 3-node edgeless graph. -/
def gE3 : Graph := ⟨3, [], [0, 0, 0, 0]⟩

/-- A 2-node edgeless (valid) graph. -/
def gE2 : Graph := ⟨2, [], [0, 0, 0]⟩

/-- A concrete toy generator instance for witnesses. -/
def cToy : CRandom := ⟨fun k => k.toNat % 100, fun s => (s % 7, s + 1)⟩

/-- The frequency-tally invariant of the spec (§3): `nb_labels` has length
`n_nodes` and every entry is zero. -/
def CleanTally (n : Nat) (t : List Nat) : Prop :=
  t.length = n ∧ ∀ x, t.getD x 0 = 0

instance (n : Nat) (labels : List Nat) : Decidable (LabelsInv n labels) := by
  unfold LabelsInv; infer_instance

/-! ### List access utilities -/

theorem getD_set_self {α : Type} (l : List α) (i : Nat) (v d : α) (hi : i < l.length) :
    (l.set i v).getD i d = v := by
  rw [List.getD_eq_getElem _ _ (by simpa using hi)]
  simp

theorem getD_set_ne {α : Type} (l : List α) {i j : Nat} (v d : α) (hij : i ≠ j) :
    (l.set i v).getD j d = l.getD j d := by
  rcases Nat.lt_or_ge j l.length with h | h
  · rw [List.getD_eq_getElem _ _ (by simpa using h), List.getD_eq_getElem _ _ h,
      List.getElem_set_ne (by omega)]
  · rw [List.getD_eq_default _ _ (by simpa using h), List.getD_eq_default _ _ h]

theorem getD_range (n i : Nat) : (List.range n).getD i 0 = if i < n then i else 0 := by
  rcases Nat.lt_or_ge i n with h | h
  · rw [List.getD_eq_getElem _ _ (by simpa using h), List.getElem_range, if_pos h]
  · rw [List.getD_eq_default _ _ (by simpa using h), if_neg (Nat.not_lt.mpr h)]

theorem getD_replicate_zero (n i : Nat) : (List.replicate n (0 : Nat)).getD i 0 = 0 := by
  rcases Nat.lt_or_ge i n with h | h
  · rw [List.getD_eq_getElem _ _ (by simpa using h), List.getElem_replicate]
  · rw [List.getD_eq_default _ _ (by simpa using h)]

/-! ### Shuffle basics -/

theorem downList_length (n : Nat) : (downList n).length = n - 1 := by
  simp [downList]

theorem shuffleGo_pos (rand : Nat → Nat) :
    ∀ (l arr : List Nat) (p : Nat), (shuffleGo rand l arr p).2 = p + l.length := by
  intro l
  induction l with
  | nil => intro arr p; simp [shuffleGo]
  | cons i rest ih =>
    intro arr p
    simp only [shuffleGo, ih, List.length_cons]
    omega

theorem shuffle_pos (rand : Nat → Nat) (arr : List Nat) (n p : Nat) :
    (shuffle rand arr n p).2 = p + (n - 1) := by
  rw [shuffle, shuffleGo_pos, downList_length]

/-! ### Edgeless graphs (claim C8) -/

theorem neighborList_nil_of_const (g : Graph)
    (hptr : ∀ k, k < g.indptr.length → g.indptr.getD k 0 = g.indptr.getD 0 0) (i : Nat) :
    neighborList g i = [] := by
  have hz : ptr g (i + 1) - ptr g i = 0 := by
    rcases Nat.lt_or_ge (i + 1) g.indptr.length with h | h
    · have h1 : ptr g (i + 1) = g.indptr.getD 0 0 := hptr _ h
      have h2 : ptr g i = g.indptr.getD 0 0 := hptr _ (by omega)
      omega
    · have h1 : ptr g (i + 1) = 0 := List.getD_eq_default _ _ h
      omega
  rw [neighborList, hz]
  rfl

theorem processNode_of_no_neighbors (g : Graph) (labels t : List Nat) (ch : Bool) (i : Nat)
    (h : neighborList g i = []) : processNode g labels t ch i = (labels, t, ch) := by
  simp [processNode, h, tallyGo, selectGo]

theorem passGo_of_no_neighbors (g : Graph) (order : List Nat)
    (h : ∀ i, neighborList g i = []) :
    ∀ (ks : List Nat) (st : List Nat × List Nat × Bool), passGo g order ks st = st := by
  intro ks
  induction ks with
  | nil => intro st; rfl
  | cons k rest ih =>
    intro st
    rw [passGo, processNode_of_no_neighbors g _ _ _ _ (h _)]
    exact ih _

theorem runPass_of_no_neighbors (g : Graph) (order labels t : List Nat)
    (h : ∀ i, neighborList g i = []) : runPass g order labels t = (labels, t, false) := by
  rw [runPass, passGo_of_no_neighbors g order h]

/-- Claim C8: on an edgeless graph (`indices` empty, `indptr` with all
entries equal) every pass leaves every label unchanged and reports no change,
so `fit_core` stops after the first pass (any fuel of at least one pass gives
the same result) and returns the identity labels `labels[i] = i`. -/
theorem c8_edgeless_identity (g : Graph)
    (hptr : ∀ k, k < g.indptr.length → g.indptr.getD k 0 = g.indptr.getD 0 0)
    (hind : g.indices = []) (rand : Nat → Nat) (fuel : Nat) :
    (∀ order labels t, runPass g order labels t = (labels, t, false)) ∧
    fit_core g rand (fuel + 1) = some (List.range g.n, g.n - 1) ∧
    (∀ i, i < g.n → (List.range g.n).getD i 0 = i) := by
  have hnb : ∀ i, neighborList g i = [] := neighborList_nil_of_const g hptr
  refine ⟨fun order labels t => runPass_of_no_neighbors g order labels t hnb, ?_, ?_⟩
  · rw [fit_core, loopGo]
    simp only [runPass_of_no_neighbors g _ _ _ hnb]
    rw [if_neg (by simp)]
    rw [shuffle_pos]
    simp
  · intro i hi
    rw [getD_range, if_pos hi]

/-- Witness for C8 at a concrete 3-node edgeless graph. -/
theorem c8_edgeless_identity_witness :
    fit_core gE3 zeroStream 1 = some (List.range 3, 2) ∧
    runPass gE3 [2, 0, 1] [1, 1, 1] [0, 0, 0] = ([1, 1, 1], [0, 0, 0], false) := by
  have h := c8_edgeless_identity gE3 (by decide) rfl zeroStream 0
  exact ⟨h.2.1, h.1 [2, 0, 1] [1, 1, 1] [0, 0, 0]⟩

/-! ### Unfolding the main loop one pass at a time -/

theorem loopGo_succ (g : Graph) (rand : Nat → Nat) (fuel : Nat) (labels t order : List Nat) (p : Nat) :
    loopGo g rand (fuel + 1) labels t order p =
      if (runPass g (shuffle rand order g.n p).1 labels t).2.2 then
        loopGo g rand fuel (runPass g (shuffle rand order g.n p).1 labels t).1
          (runPass g (shuffle rand order g.n p).1 labels t).2.1
          (shuffle rand order g.n p).1 (shuffle rand order g.n p).2
      else some ((runPass g (shuffle rand order g.n p).1 labels t).1, (shuffle rand order g.n p).2) := rfl

theorem loopTraceGo_succ (g : Graph) (rand : Nat → Nat) (fuel : Nat) (labels t order : List Nat) (p : Nat) :
    loopTraceGo g rand (fuel + 1) labels t order p =
      if (runPass g (shuffle rand order g.n p).1 labels t).2.2 then
        (runPass g (shuffle rand order g.n p).1 labels t).1 ::
          loopTraceGo g rand fuel (runPass g (shuffle rand order g.n p).1 labels t).1
            (runPass g (shuffle rand order g.n p).1 labels t).2.1
            (shuffle rand order g.n p).1 (shuffle rand order g.n p).2
      else [(runPass g (shuffle rand order g.n p).1 labels t).1] := rfl

theorem loopGo_step_changed (g : Graph) (rand : Nat → Nat) (fuel : Nat) (labels t order : List Nat)
    (p : Nat) (O : List Nat) (q : Nat) (L T : List Nat)
    (hsh : shuffle rand order g.n p = (O, q)) (hr : runPass g O labels t = (L, T, true)) :
    loopGo g rand (fuel + 1) labels t order p = loopGo g rand fuel L T O q := by
  rw [loopGo_succ]
  simp only [hsh, hr]
  simp

theorem loopGo_step_done (g : Graph) (rand : Nat → Nat) (fuel : Nat) (labels t order : List Nat)
    (p : Nat) (O : List Nat) (q : Nat) (L T : List Nat)
    (hsh : shuffle rand order g.n p = (O, q)) (hr : runPass g O labels t = (L, T, false)) :
    loopGo g rand (fuel + 1) labels t order p = some (L, q) := by
  rw [loopGo_succ]
  simp only [hsh, hr]
  simp

theorem loopTraceGo_step_changed (g : Graph) (rand : Nat → Nat) (fuel : Nat) (labels t order : List Nat)
    (p : Nat) (O : List Nat) (q : Nat) (L T : List Nat)
    (hsh : shuffle rand order g.n p = (O, q)) (hr : runPass g O labels t = (L, T, true)) :
    loopTraceGo g rand (fuel + 1) labels t order p = L :: loopTraceGo g rand fuel L T O q := by
  rw [loopTraceGo_succ]
  simp only [hsh, hr]
  simp

theorem loopTraceGo_step_done (g : Graph) (rand : Nat → Nat) (fuel : Nat) (labels t order : List Nat)
    (p : Nat) (O : List Nat) (q : Nat) (L T : List Nat)
    (hsh : shuffle rand order g.n p = (O, q)) (hr : runPass g O labels t = (L, T, false)) :
    loopTraceGo g rand (fuel + 1) labels t order p = [L] := by
  rw [loopTraceGo_succ]
  simp only [hsh, hr]
  simp

/-! ### The 2-clique (claim C9) -/

theorem neighborList_g2_hi (i : Nat) (h : 2 ≤ i) : neighborList g2 i = [] := by
  have hz : ptr g2 (i + 1) = 0 := List.getD_eq_default _ _ (by simp [g2]; omega)
  rw [neighborList, hz, Nat.zero_sub]
  rfl

theorem processNode_g2_stable (c i : Nat) (hc : c = 0 ∨ c = 1) (ch : Bool) :
    processNode g2 [c, c] [0, 0] ch i = ([c, c], [0, 0], ch) := by
  match i with
  | 0 => rcases hc with h | h <;> subst h <;> cases ch <;> decide
  | 1 => rcases hc with h | h <;> subst h <;> cases ch <;> decide
  | (m + 2) =>
    exact processNode_of_no_neighbors g2 _ _ _ _ (neighborList_g2_hi _ (by omega))

theorem passGo_stable (g : Graph) (order labels t : List Nat)
    (hstep : ∀ i ch, processNode g labels t ch i = (labels, t, ch)) :
    ∀ (ks : List Nat) (ch : Bool), passGo g order ks (labels, t, ch) = (labels, t, ch) := by
  intro ks
  induction ks with
  | nil => intro ch; rfl
  | cons k rest ih =>
    intro ch
    rw [passGo]
    simp only [hstep]
    exact ih ch

theorem runPass_g2_stable (order : List Nat) (c : Nat) (hc : c = 0 ∨ c = 1) :
    runPass g2 order [c, c] [0, 0] = ([c, c], [0, 0], false) := by
  rw [runPass]
  exact passGo_stable g2 order [c, c] [0, 0] (fun i ch => processNode_g2_stable c i hc ch) _ _

/-- Claim C9: on the graph of exactly two mutually-connected nodes,
`fit_core` terminates (any fuel of at least two passes gives the same
result): the node visited first adopts the other's label during the first
pass, the node visited second keeps the now-shared label, the second pass
changes nothing, and both nodes end with one shared label (which one depends
only on the first `rand()` draw). -/
theorem c9_two_clique (rand : Nat → Nat) (fuel : Nat) :
    fit_core g2 rand (fuel + 2) =
      some (if randDraw (rand 0) 2 = 0 then [0, 0] else [1, 1], 2) ∧
    fitTrace g2 rand (fuel + 2) =
      [if randDraw (rand 0) 2 = 0 then [0, 0] else [1, 1],
       if randDraw (rand 0) 2 = 0 then [0, 0] else [1, 1]] := by
  have hb0 : rand 0 % 2 = 0 ∨ rand 0 % 2 = 1 := Nat.mod_two_eq_zero_or_one (rand 0)
  have hq2 : ∀ O1 : List Nat, (shuffle rand O1 g2.n 1).2 = 2 := fun O1 => by
    rw [shuffle_pos]
    rfl
  rcases hb0 with h0 | h0
  · have hsh1 : shuffle rand [0, 1] g2.n 0 = ([1, 0], 1) := by
      simp [shuffle, downList, shuffleGo, randDraw, h0]
    have hr1 : runPass g2 [1, 0] [0, 1] [0, 0] = ([0, 0], [0, 0], true) := by decide
    have hsh2 : shuffle rand [1, 0] g2.n 1 = ((shuffle rand [1, 0] g2.n 1).1, 2) := by
      rw [← hq2 [1, 0]]
    have hr2 : runPass g2 (shuffle rand [1, 0] g2.n 1).1 [0, 0] [0, 0] =
        ([0, 0], [0, 0], false) := runPass_g2_stable _ 0 (Or.inl rfl)
    have hfc : fit_core g2 rand (fuel + 2) = some ([0, 0], 2) := by
      show loopGo g2 rand (fuel + 1 + 1) [0, 1] [0, 0] [0, 1] 0 = some ([0, 0], 2)
      rw [loopGo_step_changed g2 rand (fuel + 1) _ _ _ _ _ _ _ _ hsh1 hr1,
        loopGo_step_done g2 rand fuel _ _ _ _ _ _ _ _ hsh2 hr2]
    have htr : fitTrace g2 rand (fuel + 2) = [[0, 0], [0, 0]] := by
      show loopTraceGo g2 rand (fuel + 1 + 1) [0, 1] [0, 0] [0, 1] 0 = [[0, 0], [0, 0]]
      rw [loopTraceGo_step_changed g2 rand (fuel + 1) _ _ _ _ _ _ _ _ hsh1 hr1,
        loopTraceGo_step_done g2 rand fuel _ _ _ _ _ _ _ _ hsh2 hr2]
    refine ⟨?_, ?_⟩ <;> simp only [hfc, htr, randDraw, h0, if_pos]
  · have hsh1 : shuffle rand [0, 1] g2.n 0 = ([0, 1], 1) := by
      simp [shuffle, downList, shuffleGo, randDraw, h0]
    have hr1 : runPass g2 [0, 1] [0, 1] [0, 0] = ([1, 1], [0, 0], true) := by decide
    have hsh2 : shuffle rand [0, 1] g2.n 1 = ((shuffle rand [0, 1] g2.n 1).1, 2) := by
      rw [← hq2 [0, 1]]
    have hr2 : runPass g2 (shuffle rand [0, 1] g2.n 1).1 [1, 1] [0, 0] =
        ([1, 1], [0, 0], false) := runPass_g2_stable _ 1 (Or.inr rfl)
    have hfc : fit_core g2 rand (fuel + 2) = some ([1, 1], 2) := by
      show loopGo g2 rand (fuel + 1 + 1) [0, 1] [0, 0] [0, 1] 0 = some ([1, 1], 2)
      rw [loopGo_step_changed g2 rand (fuel + 1) _ _ _ _ _ _ _ _ hsh1 hr1,
        loopGo_step_done g2 rand fuel _ _ _ _ _ _ _ _ hsh2 hr2]
    have htr : fitTrace g2 rand (fuel + 2) = [[1, 1], [1, 1]] := by
      show loopTraceGo g2 rand (fuel + 1 + 1) [0, 1] [0, 0] [0, 1] 0 = [[1, 1], [1, 1]]
      rw [loopTraceGo_step_changed g2 rand (fuel + 1) _ _ _ _ _ _ _ _ hsh1 hr1,
        loopTraceGo_step_done g2 rand fuel _ _ _ _ _ _ _ _ hsh2 hr2]
    refine ⟨?_, ?_⟩ <;> simp only [hfc, htr, randDraw, h0] <;> norm_num

/-! ### Seeded reproducibility (claim C6) and the fit frame (claim C10) -/

/-- Claim C6: two runs of `fit` with the same integer seed on the same graph
produce identical labels and identical per-pass label traces, regardless of
the prior state of the global generator (modelled by `CRandom`: `srand`
replaces the state by a function of the seed alone, and the `rand()` stream
is a deterministic function of that state). -/
theorem c6_seed_reproducibility (c : CRandom) (s1 s2 : Nat) (k : Int)
    (self1 self2 : LabelPropagation) (h1 : self1.seed = some k) (h2 : self2.seed = some k)
    (g : Graph) (fuel : Nat) (r1 r2 : LabelPropagation × Nat)
    (hr1 : self1.fit c s1 g fuel = some r1) (hr2 : self2.fit c s2 g fuel = some r2) :
    r1.1.labels_ = r2.1.labels_ ∧
    fitTraceSeeded c s1 (some k) g fuel = fitTraceSeeded c s2 (some k) g fuel := by
  constructor
  · simp only [LabelPropagation.fit, h1] at hr1
    simp only [LabelPropagation.fit, h2] at hr2
    cases hfc : fit_core g (c.stream (c.seedState k)) fuel with
    | none =>
      rw [hfc] at hr1
      exact absurd hr1 (by simp)
    | some v =>
      obtain ⟨ls, p⟩ := v
      rw [hfc] at hr1 hr2
      injection hr1 with hr1'
      injection hr2 with hr2'
      rw [← hr1', ← hr2']
  · rfl

/-- Witness for C6 at a concrete seeded object and the 2-clique. -/
theorem c6_seed_reproducibility_witness :
    ((⟨some [0, 0], some 42⟩, 44) : LabelPropagation × Nat).1.labels_ =
      ((⟨some [0, 0], some 42⟩, 44) : LabelPropagation × Nat).1.labels_ ∧
    fitTraceSeeded cToy 0 (some 42) g2 5 = fitTraceSeeded cToy 99 (some 42) g2 5 :=
  c6_seed_reproducibility cToy 0 99 42 (LabelPropagation.init (some 42))
    (LabelPropagation.init (some 42)) rfl rfl g2 5 _ _ (by rfl) (by rfl)

/-- Claim C10: `fit` changes no attribute other than `labels_` (in particular
`seed` is unchanged), the value it returns is the object itself (the same
record with only `labels_` updated) together with the new global generator
state, and `fit_transform` returns exactly the value stored in `labels_`. -/
theorem c10_fit_frame (self : LabelPropagation) (c : CRandom) (s : Nat) (g : Graph) (fuel : Nat)
    (self' : LabelPropagation) (s' : Nat) (h : self.fit c s g fuel = some (self', s')) :
    self'.seed = self.seed ∧
    self' = { self with labels_ := self'.labels_ } ∧
    self.fit_transform c s g fuel = some ((self', s'), self'.labels_) := by
  have htrans : self.fit_transform c s g fuel = some ((self', s'), self'.labels_) := by
    simp only [LabelPropagation.fit_transform, h]
  have key : self'.seed = self.seed ∧ self' = { self with labels_ := self'.labels_ } := by
    rcases hsd : self.seed with _ | k
    · simp only [LabelPropagation.fit, hsd] at h
      cases hfc : fit_core g (c.stream s) fuel with
      | none =>
        rw [hfc] at h
        exact absurd h (by simp)
      | some v =>
        obtain ⟨ls, p⟩ := v
        rw [hfc] at h
        injection h with h'
        injection h' with ha hb
        subst ha
        exact ⟨hsd.symm ▸ rfl, rfl⟩
    · simp only [LabelPropagation.fit, hsd] at h
      cases hfc : fit_core g (c.stream (c.seedState k)) fuel with
      | none =>
        rw [hfc] at h
        exact absurd h (by simp)
      | some v =>
        obtain ⟨ls, p⟩ := v
        rw [hfc] at h
        injection h with h'
        injection h' with ha hb
        subst ha
        exact ⟨rfl, rfl⟩
  exact ⟨key.1, key.2, htrans⟩

/-- Witness for C10 at a concrete seeded object and the 2-clique. -/
theorem c10_fit_frame_witness :
    (⟨some [0, 0], some 42⟩ : LabelPropagation).seed = (LabelPropagation.init (some 42)).seed ∧
    (⟨some [0, 0], some 42⟩ : LabelPropagation) =
      { LabelPropagation.init (some 42) with
          labels_ := (⟨some [0, 0], some 42⟩ : LabelPropagation).labels_ } ∧
    (LabelPropagation.init (some 42)).fit_transform cToy 0 g2 5 =
      some ((⟨some [0, 0], some 42⟩, 44), (⟨some [0, 0], some 42⟩ : LabelPropagation).labels_) :=
  c10_fit_frame (LabelPropagation.init (some 42)) cToy 0 g2 5 ⟨some [0, 0], some 42⟩ 44 (by rfl)

/-! ### Structural facts about the per-node body -/

theorem tallyGo_lst_pred (labels : List Nat) (P : Nat → Prop) :
    ∀ (nbrs t lst : List Nat), (∀ x ∈ lst, P x) → (∀ v ∈ nbrs, P (labels.getD v 0)) →
      ∀ x ∈ (tallyGo labels nbrs t lst).2, P x := by
  intro nbrs
  induction nbrs with
  | nil => intro t lst hl _; exact hl
  | cons v rest ih =>
    intro t lst hl hn
    simp only [tallyGo]
    refine ih _ _ ?_ fun w hw => hn w (by simp [hw])
    intro y hy
    by_cases hz : t.getD (labels.getD v 0) 0 = 0
    · rw [if_pos hz] at hy
      rcases List.mem_append.mp hy with h | h
      · exact hl y h
      · rw [List.mem_singleton] at h
        subst h
        exact hn v (by simp)
    · rw [if_neg hz] at hy
      exact hl y hy

theorem selectGo_labels_cases (i : Nat) :
    ∀ (lst : List Nat) (m : Nat) (labs t : List Nat) (ch : Bool),
      (selectGo i lst m labs t ch).2.1 = labs ∨
      ∃ b ∈ lst, (selectGo i lst m labs t ch).2.1 = labs.set i b := by
  intro lst
  induction lst with
  | nil => intro m labs t ch; exact Or.inl rfl
  | cons lab rest ih =>
    intro m labs t ch
    simp only [selectGo]
    by_cases h : m < t.getD lab 0
    · rw [if_pos h]
      rcases ih (t.getD lab 0) (labs.set i lab) (t.set lab 0) true with h1 | ⟨b, hb, h1⟩
      · exact Or.inr ⟨lab, by simp, h1⟩
      · exact Or.inr ⟨b, by simp [hb], by rw [h1, List.set_set]⟩
    · rw [if_neg h]
      rcases ih m labs (t.set lab 0) ch with h1 | ⟨b, hb, h1⟩
      · exact Or.inl h1
      · exact Or.inr ⟨b, by simp [hb], h1⟩

theorem processNode_labels_cases (g : Graph) (labels t : List Nat) (ch : Bool) (i : Nat) :
    (processNode g labels t ch i).1 = labels ∨
    ∃ b ∈ (tallyGo labels (neighborList g i) t []).2,
      (processNode g labels t ch i).1 = labels.set i b := by
  simp only [processNode]
  exact selectGo_labels_cases i _ _ _ _ _

/-! ### CSR bounds -/

theorem ptr_mono (g : Graph) (hval : ValidCSR g) :
    ∀ (d a : Nat), a + d ≤ g.n → ptr g a ≤ ptr g (a + d) := by
  intro d
  induction d with
  | zero => intro a _; exact Nat.le_refl _
  | succ d ih =>
    intro a h
    have h1 : ptr g a ≤ ptr g (a + d) := ih a (by omega)
    have h2 : ptr g (a + d) ≤ ptr g (a + d + 1) := hval.2.1 _ (by omega)
    rw [show a + (d + 1) = a + d + 1 by omega]
    omega

theorem neighborList_mem_lt (g : Graph) (hval : ValidCSR g) (i : Nat) :
    ∀ v ∈ neighborList g i, v < g.n := by
  intro v hv'
  rw [neighborList, List.mem_map] at hv'
  obtain ⟨j, hj, rfl⟩ := hv'
  rw [List.mem_range'_1] at hj
  rcases Nat.lt_or_ge i g.n with hi | hi
  · have hle : ptr g (i + 1) ≤ ptr g g.n := by
      have h := ptr_mono g hval (g.n - (i + 1)) (i + 1) (by omega)
      rwa [Nat.add_sub_cancel' (by omega)] at h
    have hjlen : j < g.indices.length := by
      rw [← hval.2.2.1]
      omega
    exact hval.2.2.2 j hjlen
  · have h0 : ptr g (i + 1) = 0 := List.getD_eq_default _ _ (by rw [hval.1]; omega)
    omega

/-! ### Invariant preservation through passes and the main loop -/

theorem passGo_pres (g : Graph) (order : List Nat) (P : List Nat → Prop)
    (hstep : ∀ labels t ch i, P labels → P (processNode g labels t ch i).1) :
    ∀ (ks : List Nat) (st : List Nat × List Nat × Bool), P st.1 → P (passGo g order ks st).1 := by
  intro ks
  induction ks with
  | nil => intro st h; exact h
  | cons k rest ih =>
    intro st h
    rw [passGo]
    exact ih _ (hstep _ _ _ _ h)

theorem loopGo_pres (g : Graph) (rand : Nat → Nat) (P : List Nat → Prop)
    (hstep : ∀ order labels t, P labels → P (runPass g order labels t).1) :
    ∀ (fuel : Nat) (labels t order : List Nat) (p : Nat) (ls : List Nat) (q : Nat),
      P labels → loopGo g rand fuel labels t order p = some (ls, q) → P ls := by
  intro fuel
  induction fuel with
  | zero => intro labels t order p ls q _ h; exact absurd h (by simp [loopGo])
  | succ fuel ih =>
    intro labels t order p ls q hP h
    rw [loopGo_succ] at h
    by_cases hch : (runPass g (shuffle rand order g.n p).1 labels t).2.2 = true
    · rw [if_pos hch] at h
      exact ih _ _ _ _ _ _ (hstep _ _ _ hP) h
    · rw [if_neg hch] at h
      injection h with h'
      injection h' with h1 h2
      rw [← h1]
      exact hstep _ _ _ hP

theorem processNode_labelsInv (g : Graph) (hval : ValidCSR g) (labels t : List Nat) (ch : Bool)
    (i : Nat) (hinv : LabelsInv g.n labels) : LabelsInv g.n (processNode g labels t ch i).1 := by
  have hlst : ∀ x ∈ (tallyGo labels (neighborList g i) t []).2, x < g.n := by
    refine tallyGo_lst_pred labels (fun x => x < g.n) _ _ _ (by simp) ?_
    intro v hvmem
    exact hinv.2 _ (neighborList_mem_lt g hval i v hvmem)
  rcases processNode_labels_cases g labels t ch i with h | ⟨b, hb, h⟩
  · rw [h]; exact hinv
  · rw [h]
    refine ⟨by rw [List.length_set]; exact hinv.1, ?_⟩
    intro k hk
    by_cases hik : i = k
    · subst hik
      rw [getD_set_self _ _ _ _ (by rw [hinv.1]; exact hk)]
      exact hlst b hb
    · rw [getD_set_ne _ _ _ hik]
      exact hinv.2 k hk

theorem processNode_connInv (g : Graph) (hval : ValidCSR g) (labels t : List Nat) (ch : Bool)
    (i : Nat) (hinv : ConnInv g labels) : ConnInv g (processNode g labels t ch i).1 := by
  have hlst : ∀ x ∈ (tallyGo labels (neighborList g i) t []).2, Conn g i x := by
    refine tallyGo_lst_pred labels (fun x => Conn g i x) _ _ _ (by simp) ?_
    intro v hvmem
    have h1 : Conn g i v := Relation.EqvGen.rel _ _ hvmem
    have h2 : Conn g v (labels.getD v 0) := hinv.2 v (neighborList_mem_lt g hval i v hvmem)
    exact Relation.EqvGen.trans _ _ _ h1 h2
  rcases processNode_labels_cases g labels t ch i with h | ⟨b, hb, h⟩
  · rw [h]; exact hinv
  · rw [h]
    refine ⟨by rw [List.length_set]; exact hinv.1, ?_⟩
    intro k hk
    by_cases hik : i = k
    · subst hik
      rw [getD_set_self _ _ _ _ (by rw [hinv.1]; exact hk)]
      exact hlst b hb
    · rw [getD_set_ne _ _ _ hik]
      exact hinv.2 k hk

/-- Claim C1: for every valid CSR input, the labels array is the identity
(hence in range) at initialization, every pass preserves the bound
`labels[i] ∈ [0, n_nodes)` (each write stores a value previously read from
the labels array itself), and the array returned by `fit_core` has length
`n_nodes` with every entry in `[0, n_nodes)`. -/
theorem c1_labels_in_range (g : Graph) (hval : ValidCSR g) (rand : Nat → Nat) (fuel : Nat)
    (ls : List Nat) (q : Nat) (hrun : fit_core g rand fuel = some (ls, q)) :
    (∀ i, i < g.n → (List.range g.n).getD i 0 = i) ∧
    (∀ order labels t, LabelsInv g.n labels → LabelsInv g.n (runPass g order labels t).1) ∧
    LabelsInv g.n ls := by
  have hinit : LabelsInv g.n (List.range g.n) :=
    ⟨List.length_range _, fun i hi => by rw [getD_range, if_pos hi]; exact hi⟩
  have hstep : ∀ order labels t, LabelsInv g.n labels → LabelsInv g.n (runPass g order labels t).1 := by
    intro order labels t h
    rw [runPass]
    exact passGo_pres g order _ (fun labels t ch i h => processNode_labelsInv g hval labels t ch i h) _ _ h
  exact ⟨fun i hi => by rw [getD_range, if_pos hi], hstep,
    loopGo_pres g rand _ hstep fuel _ _ _ _ _ _ hinit hrun⟩

/-- Witness for C1 at a concrete valid 2-node graph. -/
theorem c1_labels_in_range_witness :
    ValidCSR gE2 ∧ ([0, 1] : List Nat).length = gE2.n ∧ ([0, 1] : List Nat).getD 0 0 < gE2.n := by
  have h := c1_labels_in_range gE2 (by decide) zeroStream 1 [0, 1] 1 (by rfl)
  exact ⟨by decide, h.2.2.1, h.2.2.2 0 (by decide)⟩

/-- Claim C7: for every valid CSR input, every node's final label is the id
of a node in its own connected component (labels start as the node's own id
and are only ever replaced by a neighbor's current label), and consequently
two nodes in different components never share a label value. -/
theorem c7_labels_in_component (g : Graph) (hval : ValidCSR g) (rand : Nat → Nat) (fuel : Nat)
    (ls : List Nat) (q : Nat) (hrun : fit_core g rand fuel = some (ls, q)) :
    (∀ i, i < g.n → Conn g i (ls.getD i 0)) ∧
    (∀ i j, i < g.n → j < g.n → ¬ Conn g i j → ls.getD i 0 ≠ ls.getD j 0) := by
  have hinit : ConnInv g (List.range g.n) :=
    ⟨List.length_range _, fun k hk => by rw [getD_range, if_pos hk]; exact Relation.EqvGen.refl k⟩
  have hstep : ∀ order labels t, ConnInv g labels → ConnInv g (runPass g order labels t).1 := by
    intro order labels t h
    rw [runPass]
    exact passGo_pres g order _ (fun labels t ch i h => processNode_connInv g hval labels t ch i h) _ _ h
  have hres : ConnInv g ls := loopGo_pres g rand _ hstep fuel _ _ _ _ _ _ hinit hrun
  refine ⟨hres.2, ?_⟩
  intro i j hi hj hnc heq
  exact hnc (Relation.EqvGen.trans _ _ _ (heq ▸ hres.2 i hi)
    (Relation.EqvGen.symm _ _ (hres.2 j hj)))

theorem eqvGen_eq_of_no_rel {r : Nat → Nat → Prop} (hno : ∀ x y, ¬ r x y) :
    ∀ a b, Relation.EqvGen r a b → a = b := by
  intro a b h
  induction h with
  | rel x y h => exact absurd h (hno x y)
  | refl x => rfl
  | symm x y _ ih => exact ih.symm
  | trans x y z _ _ ih1 ih2 => exact ih1.trans ih2

/-- Witness for C7 at a concrete 2-node graph with two singleton components. -/
theorem c7_labels_in_component_witness :
    ValidCSR gE2 ∧ Conn gE2 0 (([0, 1] : List Nat).getD 0 0) ∧
    ([0, 1] : List Nat).getD 0 0 ≠ ([0, 1] : List Nat).getD 1 0 := by
  have hnb : ∀ i, neighborList gE2 i = [] := neighborList_nil_of_const gE2 (by decide)
  have hno : ∀ x y, ¬ Adj gE2 x y := by
    intro x y hxy
    rw [Adj, hnb] at hxy
    exact absurd hxy (List.not_mem_nil y)
  have hnc : ¬ Conn gE2 0 1 := fun h => absurd (eqvGen_eq_of_no_rel hno 0 1 h) (by decide)
  have h := c7_labels_in_component gE2 (by decide) zeroStream 1 [0, 1] 1 (by rfl)
  exact ⟨by decide, h.1 0 (by decide), h.2 0 1 (by decide) (by decide) hnc⟩

/-! ### The tally table and the touched-labels list (claim C4) -/

theorem tallyGo_mem_iff_nodup (labels : List Nat) :
    ∀ (nbrs t lst : List Nat),
      (∀ v ∈ nbrs, labels.getD v 0 < t.length) →
      (∀ x, x ∈ lst ↔ t.getD x 0 ≠ 0) → lst.Nodup →
      (∀ x, x ∈ (tallyGo labels nbrs t lst).2 ↔ (tallyGo labels nbrs t lst).1.getD x 0 ≠ 0) ∧
        (tallyGo labels nbrs t lst).2.Nodup := by
  intro nbrs
  induction nbrs with
  | nil => intro t lst _ hiff hnd; exact ⟨hiff, hnd⟩
  | cons v rest ih =>
    intro t lst hb hiff hnd
    simp only [tallyGo]
    apply ih
    · intro w hw
      rw [List.length_set]
      exact hb w (by simp [hw])
    · intro x
      by_cases hz : t.getD (labels.getD v 0) 0 = 0
      · rw [if_pos hz]
        by_cases hx : x = labels.getD v 0
        · subst hx
          constructor
          · intro _
            rw [getD_set_self _ _ _ _ (hb v (by simp))]
            omega
          · intro _
            simp
        · rw [getD_set_ne _ _ _ (fun hh => hx hh.symm)]
          constructor
          · intro hmem
            rcases List.mem_append.mp hmem with h | h
            · exact (hiff x).mp h
            · simp only [List.mem_singleton] at h
              exact absurd h hx
          · intro hne
            exact List.mem_append.mpr (Or.inl ((hiff x).mpr hne))
      · rw [if_neg hz]
        by_cases hx : x = labels.getD v 0
        · subst hx
          rw [getD_set_self _ _ _ _ (hb v (by simp))]
          constructor
          · intro _
            omega
          · intro _
            exact (hiff _).mpr hz
        · rw [getD_set_ne _ _ _ (fun hh => hx hh.symm)]
          exact hiff x
    · by_cases hz : t.getD (labels.getD v 0) 0 = 0
      · rw [if_pos hz]
        have hnotmem : labels.getD v 0 ∉ lst := fun hm => ((hiff _).mp hm) hz
        refine List.nodup_append.mpr ⟨hnd, List.nodup_singleton _, ?_⟩
        intro a ha hb'
        simp only [List.mem_singleton] at hb'
        subst hb'
        exact hnotmem ha
      · rw [if_neg hz]
        exact hnd

theorem selectGo_tally (i : Nat) :
    ∀ (lst : List Nat) (m : Nat) (labs t : List Nat) (ch : Bool) (x : Nat),
      (selectGo i lst m labs t ch).2.2.1.getD x 0 = if x ∈ lst then 0 else t.getD x 0 := by
  intro lst
  induction lst with
  | nil => intro m labs t ch x; simp [selectGo]
  | cons lab rest ih =>
    intro m labs t ch x
    simp only [selectGo]
    have key : ∀ (m' : Nat) (labs' : List Nat) (ch' : Bool),
        (selectGo i rest m' labs' (t.set lab 0) ch').2.2.1.getD x 0 =
          if x ∈ lab :: rest then 0 else t.getD x 0 := by
      intro m' labs' ch'
      rw [ih]
      by_cases hx : x ∈ rest
      · rw [if_pos hx, if_pos (by simp [hx])]
      · rw [if_neg hx]
        by_cases hxl : x = lab
        · subst hxl
          rw [if_pos (by simp)]
          by_cases hlen : x < t.length
          · exact getD_set_self _ _ _ _ hlen
          · rw [List.set_eq_of_length_le (by omega)]
            exact List.getD_eq_default _ _ (by omega)
        · rw [if_neg (by simp [hxl, hx]), getD_set_ne _ _ _ (Ne.symm hxl)]
    by_cases h : m < t.getD lab 0
    · rw [if_pos h]
      exact key _ _ _
    · rw [if_neg h]
      exact key _ _ _

theorem tallyGo_tally_length (labels : List Nat) :
    ∀ (nbrs t lst : List Nat), (tallyGo labels nbrs t lst).1.length = t.length := by
  intro nbrs
  induction nbrs with
  | nil => intro t lst; rfl
  | cons v rest ih =>
    intro t lst
    simp only [tallyGo]
    rw [ih, List.length_set]

theorem selectGo_tally_length (i : Nat) :
    ∀ (lst : List Nat) (m : Nat) (labs t : List Nat) (ch : Bool),
      (selectGo i lst m labs t ch).2.2.1.length = t.length := by
  intro lst
  induction lst with
  | nil => intro m labs t ch; rfl
  | cons lab rest ih =>
    intro m labs t ch
    simp only [selectGo]
    by_cases h : m < t.getD lab 0
    · rw [if_pos h, ih, List.length_set]
    · rw [if_neg h, ih, List.length_set]

theorem processNode_tally_length (g : Graph) (labels t : List Nat) (ch : Bool) (i : Nat) :
    (processNode g labels t ch i).2.1.length = t.length := by
  simp only [processNode]
  rw [selectGo_tally_length, tallyGo_tally_length]

theorem processNode_tally_zero (g : Graph) (hval : ValidCSR g) (labels t : List Nat) (ch : Bool)
    (i : Nat) (hinv : LabelsInv g.n labels) (hclean : CleanTally g.n t) :
    ∀ x, (processNode g labels t ch i).2.1.getD x 0 = 0 := by
  have hb : ∀ v ∈ neighborList g i, labels.getD v 0 < t.length := by
    intro v hm
    rw [hclean.1]
    exact hinv.2 _ (neighborList_mem_lt g hval i v hm)
  have hmain := tallyGo_mem_iff_nodup labels (neighborList g i) t [] hb
    (fun x => ⟨fun h => absurd h (List.not_mem_nil x), fun h => absurd (hclean.2 x) h⟩)
    List.nodup_nil
  intro x
  have hsel : (processNode g labels t ch i).2.1.getD x 0 =
      if x ∈ (tallyGo labels (neighborList g i) t []).2 then 0
      else (tallyGo labels (neighborList g i) t []).1.getD x 0 := by
    simp only [processNode]
    exact selectGo_tally i _ _ _ _ _ x
  rw [hsel]
  by_cases hx : x ∈ (tallyGo labels (neighborList g i) t []).2
  · rw [if_pos hx]
  · rw [if_neg hx]
    by_contra hne
    exact hx ((hmain.1 x).mpr hne)

theorem processNode_clean (g : Graph) (hval : ValidCSR g) (labels t : List Nat) (ch : Bool)
    (i : Nat) (hinv : LabelsInv g.n labels) (hclean : CleanTally g.n t) :
    CleanTally g.n (processNode g labels t ch i).2.1 :=
  ⟨by rw [processNode_tally_length]; exact hclean.1,
   processNode_tally_zero g hval labels t ch i hinv hclean⟩

theorem passGo_clean (g : Graph) (hval : ValidCSR g) (order : List Nat) :
    ∀ (ks : List Nat) (labels t : List Nat) (ch : Bool),
      LabelsInv g.n labels → CleanTally g.n t →
      LabelsInv g.n (passGo g order ks (labels, t, ch)).1 ∧
        CleanTally g.n (passGo g order ks (labels, t, ch)).2.1 := by
  intro ks
  induction ks with
  | nil => intro labels t ch h1 h2; exact ⟨h1, h2⟩
  | cons k rest ih =>
    intro labels t ch h1 h2
    rw [passGo]
    exact ih _ _ _ (processNode_labelsInv g hval labels t ch _ h1)
      (processNode_clean g hval labels t ch _ h1 h2)

/-- Claim C4: from a clean state (all tally entries zero), the touched-labels
scratch list records exactly the labels with nonzero tallies; the per-node
cleanup resets exactly the entries of the touched list (any other entry keeps
its tally value); afterwards the tally table is all-zero again, and therefore
a whole pass started clean keeps the tally table clean at every node
boundary and ends clean. -/
theorem c4_tally_reset (g : Graph) (hval : ValidCSR g) (labels t : List Nat) (ch : Bool)
    (i : Nat) (hinv : LabelsInv g.n labels) (hclean : CleanTally g.n t) :
    (∀ x, x ∈ (tallyGo labels (neighborList g i) t []).2 ↔
        (tallyGo labels (neighborList g i) t []).1.getD x 0 ≠ 0) ∧
    (∀ x, (processNode g labels t ch i).2.1.getD x 0 =
        if x ∈ (tallyGo labels (neighborList g i) t []).2 then 0
        else (tallyGo labels (neighborList g i) t []).1.getD x 0) ∧
    CleanTally g.n (processNode g labels t ch i).2.1 ∧
    (∀ order, CleanTally g.n (runPass g order labels t).2.1) := by
  have hb : ∀ v ∈ neighborList g i, labels.getD v 0 < t.length := by
    intro v hm
    rw [hclean.1]
    exact hinv.2 _ (neighborList_mem_lt g hval i v hm)
  have hmain := tallyGo_mem_iff_nodup labels (neighborList g i) t [] hb
    (fun x => ⟨fun h => absurd h (List.not_mem_nil x), fun h => absurd (hclean.2 x) h⟩)
    List.nodup_nil
  refine ⟨hmain.1, ?_, processNode_clean g hval labels t ch i hinv hclean, ?_⟩
  · intro x
    simp only [processNode]
    exact selectGo_tally i _ _ _ _ _ x
  · intro order
    rw [runPass]
    exact (passGo_clean g hval order (List.range g.n) labels t false hinv hclean).2

theorem getD_zero_pair (x : Nat) : ([0, 0] : List Nat).getD x 0 = 0 := by
  match x with
  | 0 => rfl
  | 1 => rfl
  | _ + 2 => rfl

/-- Witness for C4 at the 2-clique, node 0. -/
theorem c4_tally_reset_witness :
    ValidCSR g2 ∧
    (1 ∈ (tallyGo [0, 1] (neighborList g2 0) [0, 0] []).2 ↔
      (tallyGo [0, 1] (neighborList g2 0) [0, 0] []).1.getD 1 0 ≠ 0) ∧
    (processNode g2 [0, 1] [0, 0] false 0).2.1.getD 1 0 = 0 ∧
    CleanTally g2.n (runPass g2 [0, 1] [0, 1] [0, 0]).2.1 := by
  have h := c4_tally_reset g2 (by decide) [0, 1] [0, 0] false 0 (by decide)
    ⟨rfl, getD_zero_pair⟩
  exact ⟨by decide, h.1 1, h.2.2.1.2 1, h.2.2.2 [0, 1]⟩

/-! ### The winning-label rule (claim C3) -/

theorem foldlMax_le_init (f : Nat → Nat) :
    ∀ (lst : List Nat) (m : Nat), m ≤ lst.foldl (fun a y => max a (f y)) m := by
  intro lst
  induction lst with
  | nil => intro m; exact Nat.le_refl m
  | cons lab rest ih =>
    intro m
    rw [List.foldl_cons]
    exact Nat.le_trans (Nat.le_max_left m (f lab)) (ih (max m (f lab)))

theorem foldlMax_le_of_mem (f : Nat → Nat) :
    ∀ (lst : List Nat) (m x : Nat), x ∈ lst → f x ≤ lst.foldl (fun a y => max a (f y)) m := by
  intro lst
  induction lst with
  | nil => intro m x hx; exact absurd hx (List.not_mem_nil x)
  | cons lab rest ih =>
    intro m x hx
    rw [List.foldl_cons]
    rcases List.mem_cons.mp hx with h | h
    · subst h
      exact Nat.le_trans (Nat.le_max_right m (f x)) (foldlMax_le_init f rest _)
    · exact ih _ x h

theorem foldlMax_eq_of_all_le (f : Nat → Nat) :
    ∀ (lst : List Nat) (m : Nat), (∀ x ∈ lst, f x ≤ m) →
      lst.foldl (fun a y => max a (f y)) m = m := by
  intro lst
  induction lst with
  | nil => intro m _; rfl
  | cons lab rest ih =>
    intro m hall
    rw [List.foldl_cons, Nat.max_eq_left (hall lab (by simp))]
    exact ih m (fun x hx => hall x (by simp [hx]))

theorem selectGo_select (i : Nat) (f : Nat → Nat) :
    ∀ (lst : List Nat) (m : Nat) (labs t : List Nat) (ch : Bool),
      lst.Nodup → (∀ x ∈ lst, t.getD x 0 = f x) →
      ((∀ x ∈ lst, f x ≤ m) →
        (selectGo i lst m labs t ch).2.1 = labs ∧ (selectGo i lst m labs t ch).2.2.2 = ch) ∧
      ((∃ x ∈ lst, m < f x) →
        (selectGo i lst m labs t ch).2.2.2 = true ∧
        (selectGo i lst m labs t ch).2.1 =
          labs.set i ((lst.find? (fun x =>
            f x == lst.foldl (fun a y => max a (f y)) m)).getD 0)) := by
  intro lst
  induction lst with
  | nil =>
    intro m labs t ch _ _
    exact ⟨fun _ => ⟨rfl, rfl⟩, fun h => absurd h (by simp)⟩
  | cons lab rest ih =>
    intro m labs t ch hnd hf
    have hflab : t.getD lab 0 = f lab := hf lab (by simp)
    have hndr : rest.Nodup := (List.nodup_cons.mp hnd).2
    have hlabnr : lab ∉ rest := (List.nodup_cons.mp hnd).1
    have hfr : ∀ x ∈ rest, (t.set lab 0).getD x 0 = f x := by
      intro x hx
      rw [getD_set_ne _ _ _ (fun hh => hlabnr (by rw [hh]; exact hx))]
      exact hf x (by simp [hx])
    constructor
    · intro hall
      have hnl : ¬ (m < t.getD lab 0) := by
        rw [hflab]
        exact Nat.not_lt.mpr (hall lab (by simp))
      simp only [selectGo]
      rw [if_neg hnl]
      exact (ih m labs (t.set lab 0) ch hndr hfr).1 (fun x hx => hall x (by simp [hx]))
    · intro hex
      simp only [selectGo]
      by_cases h : m < t.getD lab 0
      · rw [if_pos h, hflab]
        rw [hflab] at h
        by_cases hrest : ∃ x ∈ rest, f lab < f x
        · have ihB := (ih (f lab) (labs.set i lab) (t.set lab 0) true hndr hfr).2 hrest
          refine ⟨ihB.1, ?_⟩
          rw [ihB.2, List.set_set]
          have hM : (lab :: rest).foldl (fun a y => max a (f y)) m =
              rest.foldl (fun a y => max a (f y)) (f lab) := by
            rw [List.foldl_cons, Nat.max_eq_right (Nat.le_of_lt h)]
          have hlabne : ¬ ((f lab == (lab :: rest).foldl (fun a y => max a (f y)) m) = true) := by
            rw [hM, beq_iff_eq]
            obtain ⟨x, hx, hlt⟩ := hrest
            have hge := foldlMax_le_of_mem f rest (f lab) x hx
            exact Nat.ne_of_lt (Nat.lt_of_lt_of_le hlt hge)
          have hfind : List.find? (fun x =>
                f x == (lab :: rest).foldl (fun a y => max a (f y)) m) (lab :: rest) =
              List.find? (fun x =>
                f x == (lab :: rest).foldl (fun a y => max a (f y)) m) rest :=
            List.find?_cons_of_neg rest hlabne
          rw [hfind, hM]
        · push_neg at hrest
          have ihA := (ih (f lab) (labs.set i lab) (t.set lab 0) true hndr hfr).1 hrest
          refine ⟨ihA.2, ?_⟩
          rw [ihA.1]
          have hM : (lab :: rest).foldl (fun a y => max a (f y)) m = f lab := by
            rw [List.foldl_cons, Nat.max_eq_right (Nat.le_of_lt h)]
            exact foldlMax_eq_of_all_le f rest (f lab) hrest
          have hfind : List.find? (fun x =>
                f x == (lab :: rest).foldl (fun a y => max a (f y)) m) (lab :: rest) =
              some lab :=
            List.find?_cons_of_pos rest (by rw [hM]; exact beq_self_eq_true (f lab))
          rw [hfind]
          rfl
      · rw [if_neg h]
        have hle : f lab ≤ m := by
          rw [← hflab]
          omega
        have hrest : ∃ x ∈ rest, m < f x := by
          obtain ⟨x, hx, hlt⟩ := hex
          rcases List.mem_cons.mp hx with h1 | h1
          · subst h1
            omega
          · exact ⟨x, h1, hlt⟩
        have ihB := (ih m labs (t.set lab 0) ch hndr hfr).2 hrest
        refine ⟨ihB.1, ?_⟩
        rw [ihB.2]
        have hM : (lab :: rest).foldl (fun a y => max a (f y)) m =
            rest.foldl (fun a y => max a (f y)) m := by
          rw [List.foldl_cons, Nat.max_eq_left hle]
        have hlabne : ¬ ((f lab == (lab :: rest).foldl (fun a y => max a (f y)) m) = true) := by
          rw [hM, beq_iff_eq]
          obtain ⟨x, hx, hlt⟩ := hrest
          have hge := foldlMax_le_of_mem f rest m x hx
          exact Nat.ne_of_lt (by omega)
        have hfind : List.find? (fun x =>
              f x == (lab :: rest).foldl (fun a y => max a (f y)) m) (lab :: rest) =
            List.find? (fun x =>
              f x == (lab :: rest).foldl (fun a y => max a (f y)) m) rest :=
          List.find?_cons_of_neg rest hlabne
        rw [hfind, hM]

/-- Claim C3: from a clean state, a node's label changes only when some
touched label's tally strictly exceeds the tally of the node's current label
(read after tallying); when nothing exceeds it, both the labels array and the
`changed` flag are left exactly as they were; when something does, `changed`
becomes true and the written label is the first label, in first-encountered
order of the touched list, whose tally attains the running maximum (seeded
with the own-label tally). -/
theorem c3_update_rule (g : Graph) (hval : ValidCSR g) (labels t : List Nat) (ch : Bool)
    (i : Nat) (hinv : LabelsInv g.n labels) (hclean : CleanTally g.n t) :
    ((∀ x ∈ (tallyGo labels (neighborList g i) t []).2,
        (tallyGo labels (neighborList g i) t []).1.getD x 0 ≤
          (tallyGo labels (neighborList g i) t []).1.getD (labels.getD i 0) 0) →
      (processNode g labels t ch i).1 = labels ∧ (processNode g labels t ch i).2.2 = ch) ∧
    ((∃ x ∈ (tallyGo labels (neighborList g i) t []).2,
        (tallyGo labels (neighborList g i) t []).1.getD (labels.getD i 0) 0 <
          (tallyGo labels (neighborList g i) t []).1.getD x 0) →
      (processNode g labels t ch i).2.2 = true ∧
      (processNode g labels t ch i).1 = labels.set i
        (((tallyGo labels (neighborList g i) t []).2.find? (fun x =>
            (tallyGo labels (neighborList g i) t []).1.getD x 0 ==
            (tallyGo labels (neighborList g i) t []).2.foldl (fun a y =>
              max a ((tallyGo labels (neighborList g i) t []).1.getD y 0))
              ((tallyGo labels (neighborList g i) t []).1.getD (labels.getD i 0) 0))).getD 0)) := by
  have hb : ∀ v ∈ neighborList g i, labels.getD v 0 < t.length := by
    intro v hm
    rw [hclean.1]
    exact hinv.2 _ (neighborList_mem_lt g hval i v hm)
  have hmain := tallyGo_mem_iff_nodup labels (neighborList g i) t [] hb
    (fun x => ⟨fun h => absurd h (List.not_mem_nil x), fun h => absurd (hclean.2 x) h⟩)
    List.nodup_nil
  have hsel := selectGo_select i (fun y => (tallyGo labels (neighborList g i) t []).1.getD y 0)
    (tallyGo labels (neighborList g i) t []).2
    ((tallyGo labels (neighborList g i) t []).1.getD (labels.getD i 0) 0)
    labels (tallyGo labels (neighborList g i) t []).1 ch hmain.2 (fun x _ => rfl)
  exact ⟨fun h => hsel.1 h, fun h => hsel.2 h⟩

/-- Witness for C3 at the 2-clique, node 0 (sole neighbor's label wins). -/
theorem c3_update_rule_witness :
    ValidCSR g2 ∧
    (processNode g2 [0, 1] [0, 0] false 0).2.2 = true ∧
    (processNode g2 [0, 1] [0, 0] false 0).1 = [1, 1] := by
  have h := c3_update_rule g2 (by decide) [0, 1] [0, 0] false 0 (by decide)
    ⟨rfl, getD_zero_pair⟩
  have hex : ∃ x ∈ (tallyGo [0, 1] (neighborList g2 0) [0, 0] []).2,
      (tallyGo [0, 1] (neighborList g2 0) [0, 0] []).1.getD (([0, 1] : List Nat).getD 0 0) 0 <
        (tallyGo [0, 1] (neighborList g2 0) [0, 0] []).1.getD x 0 := by decide
  exact ⟨by decide, (h.2 hex).1, ((h.2 hex).2).trans (by decide)⟩

/-! ### The shuffle primitive (claim C5) -/

theorem count_set_add (l : List Nat) :
    ∀ (m x a : Nat), m < l.length →
      (l.set m a).count x + (if l.getD m 0 = x then 1 else 0) =
        l.count x + (if a = x then 1 else 0) := by
  induction l with
  | nil => intro m x a hm; simp at hm
  | cons b rest ih =>
    intro m x a hm
    match m with
    | 0 =>
      simp only [List.set_cons_zero, List.getD_cons_zero, List.count_cons, beq_iff_eq]
      split_ifs <;> omega
    | m' + 1 =>
      have h := ih m' x a (by simpa using hm)
      simp only [List.set_cons_succ, List.getD_cons_succ, List.count_cons, beq_iff_eq]
      split_ifs at h ⊢ <;> omega

theorem count_swap (l : List Nat) (i j : Nat) (hi : i < l.length) (hj : j < l.length) (x : Nat) :
    ((l.set i (l.getD j 0)).set j (l.getD i 0)).count x = l.count x := by
  have h1 := count_set_add (l.set i (l.getD j 0)) j x (l.getD i 0)
    (by rw [List.length_set]; exact hj)
  have h2 := count_set_add l i x (l.getD j 0) hi
  have hgd : (l.set i (l.getD j 0)).getD j 0 = l.getD j 0 := by
    by_cases hij : i = j
    · subst hij
      exact getD_set_self _ _ _ _ hi
    · exact getD_set_ne _ _ _ hij
  rw [hgd] at h1
  split_ifs at h1 h2 <;> omega

theorem shuffleGo_perm (rand : Nat → Nat) :
    ∀ (l arr : List Nat) (p : Nat), (∀ i ∈ l, i < arr.length) →
      (shuffleGo rand l arr p).1.Perm arr := by
  intro l
  induction l with
  | nil => intro arr p _; exact List.Perm.refl arr
  | cons i rest ih =>
    intro arr p hl
    simp only [shuffleGo]
    have hi : i < arr.length := hl i (by simp)
    have hj : randDraw (rand p) (i + 1) < arr.length := by
      have hle : randDraw (rand p) (i + 1) ≤ i :=
        Nat.lt_succ_iff.mp (Nat.mod_lt _ (by omega))
      omega
    refine List.Perm.trans (ih _ _ ?_) ?_
    · intro w hw
      rw [List.length_set, List.length_set]
      exact hl w (by simp [hw])
    · rw [List.perm_iff_count]
      intro x
      exact count_swap arr i (randDraw (rand p) (i + 1)) hi hj x

theorem downList_mem_lt (n : Nat) : ∀ i ∈ downList n, i < n := by
  intro i hi
  rw [downList, List.mem_map] at hi
  obtain ⟨k, hk, rfl⟩ := hi
  rw [List.mem_reverse, List.mem_range] at hk
  omega

/-- Claim C5 (amended): `shuffle(arr, n)` is the standard Fisher–Yates
traversal — it permutes the sequence in place (the result is a permutation of
the input) and leaves it unchanged for `n = 0` and `n = 1` — but its draw
`j = rand() % (i+1)` is not exactly uniform on `[0, i]` (see the modulo-bias
counterexample). -/
theorem c5_shuffle_permutation (rand : Nat → Nat) (arr : List Nat) (n p : Nat)
    (hlen : arr.length = n) :
    shuffle rand arr 0 p = (arr, p) ∧ shuffle rand arr 1 p = (arr, p) ∧
    (shuffle rand arr n p).1.Perm arr := by
  refine ⟨rfl, rfl, ?_⟩
  rw [shuffle]
  exact shuffleGo_perm rand (downList n) arr p
    (fun i hi => by rw [hlen]; exact downList_mem_lt n i hi)

/-- Witness for C5 at a concrete 3-element array. -/
theorem c5_shuffle_permutation_witness :
    ([5, 7, 9] : List Nat).length = 3 ∧
    shuffle zeroStream [5, 7, 9] 0 0 = ([5, 7, 9], 0) ∧
    (shuffle zeroStream [5, 7, 9] 3 0).1.Perm [5, 7, 9] := by
  have h := c5_shuffle_permutation zeroStream [5, 7, 9] 3 0 rfl
  exact ⟨rfl, h.1, h.2.2⟩

theorem countP_range_mod (m j : Nat) (hm : 0 < m) (hj : j < m) :
    ∀ N : Nat, (List.range N).countP (fun r => randDraw r m == j) =
      N / m + if j < N % m then 1 else 0 := by
  intro N
  induction N with
  | zero => simp
  | succ N ihN =>
    rw [List.range_succ, List.countP_append, ihN]
    have hdm := Nat.div_add_mod N m
    have hsingle : (List.countP (fun r => randDraw r m == j) [N]) =
        if N % m = j then 1 else 0 := by
      by_cases hc : N % m = j
      · simp [randDraw, hc]
      · simp [randDraw, hc]
    rw [hsingle]
    rcases Nat.lt_or_ge (N % m + 1) m with hlt | hge
    · have hdiv : (N + 1) / m = N / m := by
        rw [show N + 1 = m * (N / m) + (N % m + 1) by omega, Nat.mul_add_div hm,
          Nat.div_eq_of_lt hlt]
        omega
      have hmod : (N + 1) % m = N % m + 1 := by
        rw [show N + 1 = m * (N / m) + (N % m + 1) by omega]
        rw [Nat.mul_add_mod, Nat.mod_eq_of_lt hlt]
      rw [hdiv, hmod]
      split_ifs <;> omega
    · have hmeq : N % m + 1 = m := by
        have := Nat.mod_lt N hm
        omega
      have hdiv : (N + 1) / m = N / m + 1 := by
        rw [show N + 1 = m * (N / m + 1) by
            rw [Nat.mul_add, Nat.mul_one]
            omega,
          Nat.mul_div_cancel_left _ hm]
      have hmod : (N + 1) % m = 0 := by
        rw [show N + 1 = m * (N / m + 1) by
            rw [Nat.mul_add, Nat.mul_one]
            omega,
          Nat.mul_mod_right]
      rw [hdiv, hmod]
      split_ifs <;> omega

/-- Counterexample for C5: the claim that `j` is drawn uniformly from
`[0, i]` is false.  With the C generator idealized as uniform on
`[0, RAND_MAX]` (glibc, `RAND_MAX + 1 = 2^31`), the draw `rand() % (i+1)`
performed by `shuffle` maps more generator outputs to `j = 0` than to
`j = 2` when `i + 1 = 3` (classic modulo bias), so the induced distribution
on `[0, i]` is not uniform and the produced permutation is not uniform over
the `n!` orderings for `n ≥ 3`. -/
theorem c5_uniform_counterexample :
    (List.range (RAND_MAX + 1)).countP (fun r => randDraw r 3 == 0) ≠
      (List.range (RAND_MAX + 1)).countP (fun r => randDraw r 3 == 2) := by
  rw [countP_range_mod 3 0 (by norm_num) (by norm_num) (RAND_MAX + 1),
    countP_range_mod 3 2 (by norm_num) (by norm_num) (RAND_MAX + 1)]
  rw [show RAND_MAX + 1 = 2 ^ 31 by rw [RAND_MAX]; norm_num]
  norm_num

/-! ### Error handling on invalid CSR inputs (claim C2) -/

/-- Counterexample for C2: the claim that every invalid CSR input makes
`fit`/`fit_core` fail fast with a descriptive error (and never silently read
out of bounds) is false.  The input `n_nodes = 2`, `indices = [-1]`,
`indptr = [0, 1, 1]` is invalid (`-1 ∉ [0, 2)`), yet the run raises nothing:
the negative entry is read with Python wraparound semantics
(`labels[-1] = labels[1]`), node 0 silently adopts node 1's label, and the
run returns normally with labels `[1, 1]`. -/
theorem c2_fail_fast_counterexample :
    ¬ ValidCSRInt 2 [-1] [0, 1, 1] ∧
    fit_coreCy 2 [-1] [0, 1, 1] zeroStream 5 = .ok (some ([1, 1], 2)) :=
  ⟨by decide, rfl⟩

/-- Claim C2 (amended): `fit`/`fit_core` perform no input validation.  A
negative `indices` entry in `[-n_nodes, 0)` is silently read with Python
wraparound semantics and the run completes normally with an in-range but
wrong neighborhood; a non-monotone `indptr` yields empty or shifted
neighbor ranges and also completes silently; an `indices` entry `≥ n_nodes`
(or an `indptr` final offset pointing past `indices`) raises an unchecked
`IndexError` only at the moment the entry is accessed, inside the pass and
after the labels array exists — there is no fail-fast check before any
mutation. -/
theorem c2_no_fail_fast :
    (¬ ValidCSRInt 2 [-1] [0, 1, 1] ∧
      fit_coreCy 2 [-1] [0, 1, 1] zeroStream 5 = .ok (some ([1, 1], 2))) ∧
    (¬ ValidCSRInt 2 [0] [1, 0, 1] ∧
      fit_coreCy 2 [0] [1, 0, 1] zeroStream 5 = .ok (some ([0, 0], 2))) ∧
    (¬ ValidCSRInt 2 [2] [0, 1, 1] ∧
      fit_coreCy 2 [2] [0, 1, 1] zeroStream 5 = .error "IndexError: out of bounds") ∧
    (¬ ValidCSRInt 3 [0] [0, 5, 5, 1] ∧
      fit_coreCy 3 [0] [0, 5, 5, 1] zeroStream 5 = .error "IndexError: out of bounds") :=
  ⟨⟨by decide, rfl⟩, ⟨by decide, rfl⟩, ⟨by decide, rfl⟩, ⟨by decide, rfl⟩⟩
